import Mathlib

set_option maxHeartbeats 1000000

/-!
Shallow embedding of the hash-table library (two collision-resolution
strategies over a fixed-size backing array): `HashTableChaining` (separate
chaining with per-bucket linked overflow lists) and `HashTableLinearProbing`
(open addressing with forward wraparound scanning), sharing one hash policy.

Modelling conventions:
* Python strings are modelled by their lists of character code points
  (`ord` values); Python integers by `Int` (arbitrary precision).
* The linked chain of `Node` objects in a bucket is modelled as a
  `List (Key × V)` in chain order (head of the list = head of the chain).
* The parallel arrays `self.table` / `self.keys` of the probing table are
  `List (Option V)` / `List (Option Key)`; `none` models a `None` slot.
  The occupancy counter `self.count` is an `Int` (Python integers can in
  principle go negative on `count -= 1`).
* The unbounded `while` loops of the probing scans advance by
  `(index + 1) % size` and stop when the index wraps back to the starting
  index, hence they inspect at most `size` slots; they are embedded as
  structurally recursive functions on a fuel argument initialised to `size`.
* `raise Exception("Hash table is full")` in `insert` / `_find_slot` is
  modelled by the `none` result of an `Option`-valued function (the raise
  happens before any mutation, so no partial state needs to be represented).
* The two standalone files `hash_table_chaining.py` and
  `hash_table_linear_probing.py` contain methods that are line-for-line the
  same algorithms as the classes in `hash_tables.py` (only the default size
  differs), so this single embedding covers both.
-/

/-- A key is either a text string (modelled by its list of character code
points) or an integer, matching the two cases of `_hash_function`. -/
inductive Key where
  | str : List Nat → Key
  | int : Int → Key
deriving DecidableEq

/-- Embeds `HashTableBase._hash_function` (shared by both implementations;
`self.size` is passed explicitly). For a string key: sum of the character
code points modulo size; for an integer key: the key modulo size. Python's
`%` on integers with a positive modulus agrees with `Int.emod`. -/
def hashFunction (key : Key) (size : Nat) : Nat :=
  match key with
  | Key.str s => s.sum % size
  | Key.int n => (n % (size : Int)).toNat

/-- Embeds `HashTableChaining`: `size` and the bucket array `self.table`,
where an empty bucket (`None`) is the empty chain `[]`. -/
structure HashTableChaining (V : Type) where
  size : Nat
  table : List (List (Key × V))
deriving DecidableEq

/-- Embeds `HashTableChaining.__init__`: an array of `size` empty buckets.
No validation of `size` is performed by the source constructor. -/
def HashTableChaining.init (V : Type) (size : Nat) : HashTableChaining V :=
  { size := size, table := List.replicate size [] }

/-- Embeds the chain walk of `HashTableChaining.insert` on one bucket:
if a node with the key exists, its value is replaced in place; otherwise a
new node is appended at the tail (an empty bucket gets a single new node). -/
def insertChain {V : Type} (key : Key) (value : V) : List (Key × V) → List (Key × V)
  | [] => [(key, value)]
  | (k, v) :: rest =>
    if k = key then (k, value) :: rest
    else (k, v) :: insertChain key value rest

/-- Embeds `HashTableChaining.insert`: rewrite the bucket at the key's hash
index using `insertChain`. -/
def HashTableChaining.insert {V : Type} (ht : HashTableChaining V) (key : Key)
    (value : V) : HashTableChaining V :=
  let index := hashFunction key ht.size
  { ht with table := ht.table.set index (insertChain key value (ht.table.getD index [])) }

/-- Embeds the chain walk of `HashTableChaining.retrieve` on one bucket:
value of the first node with a matching key, else `none` (Python `None`). -/
def retrieveChain {V : Type} (key : Key) : List (Key × V) → Option V
  | [] => none
  | (k, v) :: rest => if k = key then some v else retrieveChain key rest

/-- Embeds `HashTableChaining.retrieve`. -/
def HashTableChaining.retrieve {V : Type} (ht : HashTableChaining V) (key : Key) :
    Option V :=
  retrieveChain key (ht.table.getD (hashFunction key ht.size) [])

/-- Embeds the chain walk of `HashTableChaining.remove` on one bucket:
unlink the first node with a matching key (head rebind or splice), no-op if
the key is absent from the chain. -/
def removeChain {V : Type} (key : Key) : List (Key × V) → List (Key × V)
  | [] => []
  | (k, v) :: rest => if k = key then rest else (k, v) :: removeChain key rest

/-- Embeds `HashTableChaining.remove`. -/
def HashTableChaining.remove {V : Type} (ht : HashTableChaining V) (key : Key) :
    HashTableChaining V :=
  let index := hashFunction key ht.size
  { ht with table := ht.table.set index (removeChain key (ht.table.getD index [])) }

/-- Number of nodes in a chain carrying the given key. -/
def countKey {V : Type} (key : Key) : List (Key × V) → Nat
  | [] => 0
  | (k, _) :: rest => (if k = key then 1 else 0) + countKey key rest

/-- The bucket a key hashes to in a chaining table. -/
def HashTableChaining.bucket {V : Type} (ht : HashTableChaining V) (key : Key) :
    List (Key × V) :=
  ht.table.getD (hashFunction key ht.size) []

/-- Embeds `HashTableLinearProbing`: `size`, the parallel arrays
`self.table` (values) and `self.keys` (keys), and the occupancy counter
`self.count`. -/
structure HashTableLinearProbing (V : Type) where
  size : Nat
  table : List (Option V)
  keys : List (Option Key)
  count : Int
deriving DecidableEq

/-- Embeds `HashTableLinearProbing.__init__`: two arrays of `size` empty
slots and `count = 0`. No validation of `size` is performed by the source
constructor. -/
def HashTableLinearProbing.init (V : Type) (size : Nat) : HashTableLinearProbing V :=
  { size := size
    table := List.replicate size none
    keys := List.replicate size none
    count := 0 }

/-- Embeds the `while True` loop of `HashTableLinearProbing._find_slot`:
starting from `index`, return the first slot that is empty or holds the
same key, advancing by `(index + 1) % size`; `none` models the
`raise Exception("Hash table is full")` taken when the scan wraps all the
way around (after examining `size` slots, the fuel with which the loop is
entered). -/
def findSlotAux (keys : List (Option Key)) (size : Nat) (key : Key) :
    Nat → Nat → Option Nat
  | 0, _ => none
  | fuel + 1, index =>
    if keys.getD index none = none ∨ keys.getD index none = some key then some index
    else findSlotAux keys size key fuel ((index + 1) % size)

/-- Embeds `HashTableLinearProbing._find_slot`: the scan starts at the hash
index and may examine every one of the `size` slots once. -/
def HashTableLinearProbing.findSlot {V : Type} (ht : HashTableLinearProbing V)
    (key : Key) : Option Nat :=
  findSlotAux ht.keys ht.size key ht.size (hashFunction key ht.size)

/-- Embeds `HashTableLinearProbing.insert`: fail (`none`, the table-full
exception) if `count >= size`; otherwise probe for a slot (which may itself
fail with the same exception), increment `count` only when the found slot
does not already hold this key, then write key and value. -/
def HashTableLinearProbing.insert {V : Type} (ht : HashTableLinearProbing V)
    (key : Key) (value : V) : Option (HashTableLinearProbing V) :=
  if (ht.size : Int) ≤ ht.count then none
  else
    match ht.findSlot key with
    | none => none
    | some index =>
      some { ht with
             keys := ht.keys.set index (some key)
             table := ht.table.set index (some value)
             count := if ht.keys.getD index none ≠ some key then ht.count + 1 else ht.count }

/-- Embeds the identical occupied-slot scan shared by
`HashTableLinearProbing.retrieve` and `HashTableLinearProbing.remove`:
starting from `index`, walk while slots are occupied; return the index on a
key match; return `none` on reaching an empty slot or after a full
wraparound (`size` slots examined, the fuel with which the loop is
entered). `retrieve` reads at the returned index, `remove` clears it. -/
def scanAux (keys : List (Option Key)) (size : Nat) (key : Key) :
    Nat → Nat → Option Nat
  | 0, _ => none
  | fuel + 1, index =>
    match keys.getD index none with
    | none => none
    | some k =>
      if k = key then some index
      else scanAux keys size key fuel ((index + 1) % size)

/-- Embeds `HashTableLinearProbing.retrieve`: scan from the hash index;
on a key match return the stored value, otherwise `None`. -/
def HashTableLinearProbing.retrieve {V : Type} (ht : HashTableLinearProbing V)
    (key : Key) : Option V :=
  match scanAux ht.keys ht.size key ht.size (hashFunction key ht.size) with
  | some index => ht.table.getD index none
  | none => none

/-- The mutation performed by `HashTableLinearProbing.remove` on a match at
`index`: clear both parallel arrays at the slot and decrement `count`. -/
def HashTableLinearProbing.clearSlot {V : Type} (ht : HashTableLinearProbing V)
    (index : Nat) : HashTableLinearProbing V :=
  { ht with
    keys := ht.keys.set index none
    table := ht.table.set index none
    count := ht.count - 1 }

/-- Embeds `HashTableLinearProbing.remove`: the same scan as `retrieve`;
on a key match clear the slot, otherwise leave the table unchanged (remove
of a missing key is a silent no-op in the source). -/
def HashTableLinearProbing.remove {V : Type} (ht : HashTableLinearProbing V)
    (key : Key) : HashTableLinearProbing V :=
  match scanAux ht.keys ht.size key ht.size (hashFunction key ht.size) with
  | some index => ht.clearSlot index
  | none => ht

/-- Number of occupied (non-`None`) slots of a key array. -/
def occCount : List (Option Key) → Nat
  | [] => 0
  | none :: rest => occCount rest
  | some _ :: rest => occCount rest + 1

/-- Structural well-formedness of a probing table as produced by the source
code: the parallel arrays have length `size` (they are allocated once in
`__init__` and only ever updated in place) and `count` equals the number of
occupied slots. -/
def HashTableLinearProbing.WFP {V : Type} (ht : HashTableLinearProbing V) : Prop :=
  ht.keys.length = ht.size ∧ ht.table.length = ht.size ∧
    ht.count = (occCount ht.keys : Int)

/-- The key is stored in some slot of the probing table. -/
def storedIn {V : Type} (ht : HashTableLinearProbing V) (key : Key) : Prop :=
  some key ∈ ht.keys

/-- At most one slot of the key array holds the given key. -/
def atMostOneSlot (keys : List (Option Key)) (key : Key) : Prop :=
  ∀ p, p < keys.length → ∀ q, q < keys.length →
    keys.getD p none = some key → keys.getD q none = some key → p = q

/-- Sequential insertion of a list of key-value pairs into a probing table,
propagating the first table-full failure. -/
def insertList {V : Type} (t : HashTableLinearProbing V) :
    List (Key × V) → Option (HashTableLinearProbing V)
  | [] => some t
  | (k, v) :: rest =>
    match t.insert k v with
    | some t2 => insertList t2 rest
    | none => none

/-- Probing-table states reachable from a freshly constructed table of
positive size (the spec's `size > 0` precondition) by successful inserts
and by removes; `retrieve` does not change the state. -/
inductive Reachable {V : Type} : HashTableLinearProbing V → Prop where
  | init : ∀ size : Nat, 0 < size → Reachable (HashTableLinearProbing.init V size)
  | insert : ∀ (ht ht2 : HashTableLinearProbing V) (k : Key) (v : V),
      Reachable ht → ht.insert k v = some ht2 → Reachable ht2
  | remove : ∀ (ht : HashTableLinearProbing V) (k : Key),
      Reachable ht → Reachable (ht.remove k)

/-! ## List helper lemmas -/

theorem getD_cons_succ {α : Type} (a : α) (l : List α) (i : Nat) (d : α) :
    (a :: l).getD (i + 1) d = l.getD i d := rfl

theorem getD_cons_zero {α : Type} (a : α) (l : List α) (d : α) :
    (a :: l).getD 0 d = a := rfl

theorem getD_set_self {α : Type} (l : List α) (i : Nat) (a d : α) (h : i < l.length) :
    (l.set i a).getD i d = a := by
  induction l generalizing i with
  | nil => simp at h
  | cons b rest ih =>
    cases i with
    | zero => rfl
    | succ j =>
      have hj : j < rest.length := by simpa using h
      simpa [List.set, getD_cons_succ] using ih j hj

theorem getD_set_ne {α : Type} (l : List α) (i j : Nat) (a d : α) (h : j ≠ i) :
    (l.set i a).getD j d = l.getD j d := by
  induction l generalizing i j with
  | nil => rfl
  | cons b rest ih =>
    cases i with
    | zero =>
      cases j with
      | zero => exact absurd rfl h
      | succ j2 => rfl
    | succ i2 =>
      cases j with
      | zero => rfl
      | succ j2 =>
        have : j2 ≠ i2 := fun he => h (by rw [he])
        simpa [List.set, getD_cons_succ] using ih i2 j2 this

theorem set_getD_eq_self {α : Type} (l : List α) (i : Nat) (d : α) :
    l.set i (l.getD i d) = l := by
  induction l generalizing i with
  | nil => rfl
  | cons b rest ih =>
    cases i with
    | zero => rfl
    | succ j =>
      show b :: rest.set j (rest.getD j d) = b :: rest
      rw [ih j]

theorem getD_of_length_le {α : Type} (l : List α) (i : Nat) (d : α)
    (h : l.length ≤ i) : l.getD i d = d := by
  induction l generalizing i with
  | nil => rfl
  | cons b rest ih =>
    cases i with
    | zero => simp at h
    | succ j => simpa [getD_cons_succ] using ih j (by simpa using h)

theorem mem_iff_getD (l : List (Option Key)) (k : Key) :
    some k ∈ l ↔ ∃ p, p < l.length ∧ l.getD p none = some k := by
  induction l with
  | nil => simp
  | cons a rest ih =>
    constructor
    · intro hmem
      rcases List.mem_cons.mp hmem with ha | hrest
      · exact ⟨0, by simp, by simp [ha.symm]⟩
      · rcases ih.mp hrest with ⟨p, hp, hg⟩
        exact ⟨p + 1, by simpa using hp, by simpa [getD_cons_succ] using hg⟩
    · rintro ⟨p, hp, hg⟩
      cases p with
      | zero => exact List.mem_cons.mpr (Or.inl hg.symm)
      | succ q =>
        exact List.mem_cons.mpr (Or.inr (ih.mpr ⟨q, by simpa using hp, hg⟩))

/-! ## Occupancy counting lemmas -/

theorem occCount_le_length (l : List (Option Key)) : occCount l ≤ l.length := by
  induction l with
  | nil => simp [occCount]
  | cons a rest ih =>
    cases a with
    | none => simp [occCount]; omega
    | some k => simp [occCount]; omega

theorem occCount_replicate (n : Nat) : occCount (List.replicate n none) = 0 := by
  induction n with
  | zero => rfl
  | succ m ih => simpa [List.replicate, occCount] using ih

theorem occCount_set_some_of_none (l : List (Option Key)) (i : Nat) (a : Key)
    (hi : i < l.length) (h : l.getD i none = none) :
    occCount (l.set i (some a)) = occCount l + 1 := by
  induction l generalizing i with
  | nil => simp at hi
  | cons b rest ih =>
    cases i with
    | zero =>
      have : b = none := h
      subst this
      simp [List.set, occCount]
    | succ j =>
      have hj : j < rest.length := by simpa using hi
      have hg : rest.getD j none = none := h
      cases b with
      | none => simpa [List.set, occCount] using ih j hj hg
      | some c => simpa [List.set, occCount] using ih j hj hg

theorem occCount_set_some_of_some (l : List (Option Key)) (i : Nat) (a b : Key)
    (h : l.getD i none = some b) :
    occCount (l.set i (some a)) = occCount l := by
  induction l generalizing i with
  | nil => simp [occCount] at h ⊢
  | cons c rest ih =>
    cases i with
    | zero =>
      have : c = some b := h
      subst this
      simp [List.set, occCount]
    | succ j =>
      have hg : rest.getD j none = some b := h
      cases c with
      | none => simpa [List.set, occCount] using ih j hg
      | some d => simpa [List.set, occCount] using ih j hg

theorem occCount_set_none_of_some (l : List (Option Key)) (i : Nat) (b : Key)
    (h : l.getD i none = some b) :
    occCount l = occCount (l.set i none) + 1 := by
  induction l generalizing i with
  | nil => simp [occCount] at h ⊢
  | cons c rest ih =>
    cases i with
    | zero =>
      have : c = some b := h
      subst this
      simp [List.set, occCount]
    | succ j =>
      have hg : rest.getD j none = some b := h
      cases c with
      | none => simpa [List.set, occCount] using ih j hg
      | some d => simpa [List.set, occCount] using ih j hg

theorem exists_empty_of_occCount_lt (l : List (Option Key))
    (h : occCount l < l.length) : ∃ j, j < l.length ∧ l.getD j none = none := by
  induction l with
  | nil => simp at h
  | cons a rest ih =>
    cases a with
    | none => exact ⟨0, by simp, rfl⟩
    | some k =>
      have : occCount rest < rest.length := by
        simpa [occCount] using h
      rcases ih this with ⟨j, hj, hg⟩
      exact ⟨j + 1, by simpa using hj, by simpa [getD_cons_succ] using hg⟩

theorem all_occupied_of_occCount_eq (l : List (Option Key))
    (h : occCount l = l.length) :
    ∀ j, j < l.length → l.getD j none ≠ none := by
  induction l with
  | nil => intro j hj; simp at hj
  | cons a rest ih =>
    intro j hj
    cases a with
    | none =>
      exfalso
      have h1 : occCount rest ≤ rest.length := occCount_le_length rest
      have h2 : occCount rest = rest.length + 1 := by simpa [occCount] using h
      omega
    | some k =>
      cases j with
      | zero => simp
      | succ j2 =>
        have : occCount rest = rest.length := by simpa [occCount] using h
        exact ih this j2 (by simpa using hj)

/-! ## Chain lemmas -/

theorem retrieve_insertChain {V : Type} (key : Key) (value : V)
    (c : List (Key × V)) :
    retrieveChain key (insertChain key value c) = some value := by
  induction c with
  | nil => simp [insertChain, retrieveChain]
  | cons p rest ih =>
    obtain ⟨k, v⟩ := p
    by_cases hk : k = key
    · simp [insertChain, retrieveChain, hk]
    · simp [insertChain, retrieveChain, hk, ih]

theorem countKey_insertChain {V : Type} (key : Key) (value : V)
    (c : List (Key × V)) :
    countKey key (insertChain key value c) = max (countKey key c) 1 := by
  induction c with
  | nil => simp [insertChain, countKey]
  | cons p rest ih =>
    obtain ⟨k, v⟩ := p
    by_cases hk : k = key
    · simp [insertChain, countKey, hk]
    · simp [insertChain, countKey, hk, ih]

theorem length_insertChain {V : Type} (key : Key) (value : V)
    (c : List (Key × V)) :
    (insertChain key value c).length =
      if countKey key c = 0 then c.length + 1 else c.length := by
  induction c with
  | nil => simp [insertChain, countKey]
  | cons p rest ih =>
    obtain ⟨k, v⟩ := p
    by_cases hk : k = key
    · simp [insertChain, countKey, hk]
    · simp [insertChain, countKey, hk, ih]
      by_cases hc : countKey key rest = 0 <;> simp [hc]

theorem countKey_removeChain {V : Type} (key : Key) (c : List (Key × V)) :
    countKey key (removeChain key c) = countKey key c - 1 := by
  induction c with
  | nil => simp [removeChain, countKey]
  | cons p rest ih =>
    obtain ⟨k, v⟩ := p
    by_cases hk : k = key
    · simp [removeChain, countKey, hk]
    · simp [removeChain, countKey, hk, ih]

theorem removeChain_of_countKey_zero {V : Type} (key : Key) (c : List (Key × V))
    (h : countKey key c = 0) : removeChain key c = c := by
  induction c with
  | nil => rfl
  | cons p rest ih =>
    obtain ⟨k, v⟩ := p
    by_cases hk : k = key
    · simp [countKey, hk] at h
    · have : countKey key rest = 0 := by simpa [countKey, hk] using h
      simp [removeChain, hk, ih this]

theorem retrieveChain_of_countKey_zero {V : Type} (key : Key) (c : List (Key × V))
    (h : countKey key c = 0) : retrieveChain key c = none := by
  induction c with
  | nil => rfl
  | cons p rest ih =>
    obtain ⟨k, v⟩ := p
    by_cases hk : k = key
    · simp [countKey, hk] at h
    · have : countKey key rest = 0 := by simpa [countKey, hk] using h
      simp [retrieveChain, hk, ih this]

/-! ## Probe-sequence arithmetic -/

theorem probe_reaches (size h j : Nat) (hh : h < size) (hj : j < size) :
    ∃ t, t < size ∧ (h + t) % size = j := by
  have hsize : 0 < size := Nat.lt_of_le_of_lt (Nat.zero_le h) hh
  refine ⟨(size + j - h) % size, Nat.mod_lt _ hsize, ?_⟩
  have h1 : h + (size + j - h) = size + j := by omega
  calc (h + (size + j - h) % size) % size
      = ((h % size) + ((size + j - h) % size % size)) % size := by
        rw [Nat.add_mod]
    _ = ((h % size) + ((size + j - h) % size)) % size := by
        rw [Nat.mod_mod_of_dvd _ dvd_rfl]
    _ = (h + (size + j - h)) % size := by rw [← Nat.add_mod]
    _ = (size + j) % size := by rw [h1]
    _ = j % size := Nat.add_mod_left size j
    _ = j := Nat.mod_eq_of_lt hj

/-! ## Hash function range -/

theorem hashFunction_lt (key : Key) (size : Nat) (h : 0 < size) :
    hashFunction key size < size := by
  cases key with
  | str s => exact Nat.mod_lt _ h
  | int n =>
    have hpos : (0 : Int) < (size : Int) := by exact_mod_cast h
    have hnn : 0 ≤ n % (size : Int) := Int.emod_nonneg n (by omega)
    have hlt : n % (size : Int) < (size : Int) := Int.emod_lt_of_pos n hpos
    simpa [hashFunction] using (Int.toNat_lt hnn).mpr hlt

/-! ## Characterisation of the `_find_slot` scan -/

theorem findSlotAux_some_spec (keys : List (Option Key)) (size : Nat) (key : Key) :
    ∀ fuel idx i, idx < size →
      findSlotAux keys size key fuel idx = some i →
      ∃ t, t < fuel ∧ i = (idx + t) % size ∧
        (keys.getD i none = none ∨ keys.getD i none = some key) ∧
        (∀ s, s < t → ¬(keys.getD ((idx + s) % size) none = none ∨
                        keys.getD ((idx + s) % size) none = some key)) := by
  intro fuel
  induction fuel with
  | zero =>
    intro idx i hidx h
    simp [findSlotAux] at h
  | succ f ih =>
    intro idx i hidx h
    have hdef : findSlotAux keys size key (f + 1) idx =
        if keys.getD idx none = none ∨ keys.getD idx none = some key then some idx
        else findSlotAux keys size key f ((idx + 1) % size) := rfl
    by_cases hstop : keys.getD idx none = none ∨ keys.getD idx none = some key
    · rw [hdef, if_pos hstop] at h
      have hie : idx = i := Option.some.inj h
      subst hie
      exact ⟨0, Nat.succ_pos f, by simp [Nat.mod_eq_of_lt hidx], hstop,
        fun s hs => absurd hs (Nat.not_lt_zero s)⟩
    · rw [hdef, if_neg hstop] at h
      have h2 : findSlotAux keys size key f ((idx + 1) % size) = some i := h
      have hsize : 0 < size := Nat.lt_of_le_of_lt (Nat.zero_le idx) hidx
      have hidx2 : (idx + 1) % size < size := Nat.mod_lt _ hsize
      obtain ⟨t, ht, hi, hstopAt, hbefore⟩ := ih ((idx + 1) % size) i hidx2 h2
      have harith : ∀ s : Nat, ((idx + 1) % size + s) % size = (idx + (s + 1)) % size := by
        intro s
        rw [Nat.mod_add_mod]
        have : idx + 1 + s = idx + (s + 1) := by omega
        rw [this]
      refine ⟨t + 1, by omega, ?_, hstopAt, ?_⟩
      · rw [hi, harith t]
      · intro s hs
        cases s with
        | zero =>
          simpa [Nat.mod_eq_of_lt hidx] using hstop
        | succ s2 =>
          have hb := hbefore s2 (by omega)
          rwa [harith s2] at hb

theorem findSlotAux_lt (keys : List (Option Key)) (size : Nat) (key : Key)
    (fuel idx i : Nat) (hidx : idx < size)
    (h : findSlotAux keys size key fuel idx = some i) : i < size := by
  obtain ⟨t, _, hi, _, _⟩ := findSlotAux_some_spec keys size key fuel idx i hidx h
  have hsize : 0 < size := Nat.lt_of_le_of_lt (Nat.zero_le idx) hidx
  rw [hi]
  exact Nat.mod_lt _ hsize

theorem findSlotAux_none_spec (keys : List (Option Key)) (size : Nat) (key : Key) :
    ∀ fuel idx, idx < size →
      findSlotAux keys size key fuel idx = none →
      ∀ t, t < fuel → ¬(keys.getD ((idx + t) % size) none = none ∨
                        keys.getD ((idx + t) % size) none = some key) := by
  intro fuel
  induction fuel with
  | zero =>
    intro idx hidx h t ht
    exact absurd ht (Nat.not_lt_zero t)
  | succ f ih =>
    intro idx hidx h t ht
    have hdef : findSlotAux keys size key (f + 1) idx =
        if keys.getD idx none = none ∨ keys.getD idx none = some key then some idx
        else findSlotAux keys size key f ((idx + 1) % size) := rfl
    by_cases hstop : keys.getD idx none = none ∨ keys.getD idx none = some key
    · rw [hdef, if_pos hstop] at h
      exact Option.noConfusion h
    · rw [hdef, if_neg hstop] at h
      have h2 : findSlotAux keys size key f ((idx + 1) % size) = none := h
      have hsize : 0 < size := Nat.lt_of_le_of_lt (Nat.zero_le idx) hidx
      have hidx2 : (idx + 1) % size < size := Nat.mod_lt _ hsize
      have harith : ∀ s : Nat, ((idx + 1) % size + s) % size = (idx + (s + 1)) % size := by
        intro s
        rw [Nat.mod_add_mod]
        have : idx + 1 + s = idx + (s + 1) := by omega
        rw [this]
      cases t with
      | zero => simpa [Nat.mod_eq_of_lt hidx] using hstop
      | succ t2 =>
        have hb := ih ((idx + 1) % size) hidx2 h2 t2 (by omega)
        rwa [harith t2] at hb

theorem findSlotAux_ne_none_of_empty (keys : List (Option Key)) (size : Nat)
    (key : Key) (idx : Nat) (hidx : idx < size)
    (hempty : ∃ j, j < size ∧ keys.getD j none = none) :
    findSlotAux keys size key size idx ≠ none := by
  intro hnone
  obtain ⟨j, hj, hjnone⟩ := hempty
  obtain ⟨t, ht, hreach⟩ := probe_reaches size idx j hidx hj
  have := findSlotAux_none_spec keys size key size idx hidx hnone t ht
  rw [hreach] at this
  exact this (Or.inl hjnone)

theorem findSlotAux_finds_of_full (keys : List (Option Key)) (size : Nat)
    (key : Key)
    (hfull : ∀ j, j < size → keys.getD j none ≠ none) :
    ∀ fuel idx, idx < size →
      (∃ s, s < fuel ∧ keys.getD ((idx + s) % size) none = some key) →
      ∃ i, i < size ∧ findSlotAux keys size key fuel idx = some i ∧
        keys.getD i none = some key := by
  intro fuel
  induction fuel with
  | zero =>
    intro idx hidx h
    obtain ⟨s, hs, _⟩ := h
    exact absurd hs (Nat.not_lt_zero s)
  | succ f ih =>
    intro idx hidx h
    have hsize : 0 < size := Nat.lt_of_le_of_lt (Nat.zero_le idx) hidx
    have hdef : findSlotAux keys size key (f + 1) idx =
        if keys.getD idx none = none ∨ keys.getD idx none = some key then some idx
        else findSlotAux keys size key f ((idx + 1) % size) := rfl
    by_cases hkey : keys.getD idx none = some key
    · exact ⟨idx, hidx, by rw [hdef, if_pos (Or.inr hkey)], hkey⟩
    · have hne : ¬(keys.getD idx none = none ∨ keys.getD idx none = some key) := by
        push_neg
        exact ⟨hfull idx hidx, hkey⟩
      have harith : ∀ s : Nat, ((idx + 1) % size + s) % size = (idx + (s + 1)) % size := by
        intro s
        rw [Nat.mod_add_mod]
        have : idx + 1 + s = idx + (s + 1) := by omega
        rw [this]
      obtain ⟨s, hs, hsk⟩ := h
      cases s with
      | zero =>
        rw [Nat.add_zero, Nat.mod_eq_of_lt hidx] at hsk
        exact absurd hsk hkey
      | succ s2 =>
        have hidx2 : (idx + 1) % size < size := Nat.mod_lt _ hsize
        obtain ⟨i, hi, hfind, hik⟩ := ih ((idx + 1) % size) hidx2
          ⟨s2, by omega, by rw [harith s2]; exact hsk⟩
        exact ⟨i, hi, by rw [hdef, if_neg hne]; exact hfind, hik⟩

/-! ## Characterisation of the retrieve/remove scan -/

theorem scanAux_succ_empty (keys : List (Option Key)) (size : Nat) (key : Key)
    (f idx : Nat) (hg : keys.getD idx none = none) :
    scanAux keys size key (f + 1) idx = none := by
  have hdef : scanAux keys size key (f + 1) idx =
      match keys.getD idx none with
      | none => none
      | some k =>
        if k = key then some idx else scanAux keys size key f ((idx + 1) % size) := rfl
  rw [hdef, hg]

theorem scanAux_succ_found (keys : List (Option Key)) (size : Nat) (key : Key)
    (f idx : Nat) (hg : keys.getD idx none = some key) :
    scanAux keys size key (f + 1) idx = some idx := by
  have hdef : scanAux keys size key (f + 1) idx =
      match keys.getD idx none with
      | none => none
      | some k =>
        if k = key then some idx else scanAux keys size key f ((idx + 1) % size) := rfl
  rw [hdef, hg]
  exact if_pos rfl

theorem scanAux_succ_step (keys : List (Option Key)) (size : Nat) (key : Key)
    (f idx : Nat) (k : Key) (hg : keys.getD idx none = some k) (hk : k ≠ key) :
    scanAux keys size key (f + 1) idx = scanAux keys size key f ((idx + 1) % size) := by
  have hdef : scanAux keys size key (f + 1) idx =
      match keys.getD idx none with
      | none => none
      | some k2 =>
        if k2 = key then some idx else scanAux keys size key f ((idx + 1) % size) := rfl
  rw [hdef, hg]
  exact if_neg hk

theorem scanAux_some_spec (keys : List (Option Key)) (size : Nat) (key : Key) :
    ∀ fuel idx j, idx < size → scanAux keys size key fuel idx = some j →
      j < size ∧ keys.getD j none = some key := by
  intro fuel
  induction fuel with
  | zero =>
    intro idx j hidx h
    simp [scanAux] at h
  | succ f ih =>
    intro idx j hidx h
    cases hg : keys.getD idx none with
    | none =>
      rw [scanAux_succ_empty keys size key f idx hg] at h
      exact Option.noConfusion h
    | some k =>
      by_cases hk : k = key
      · rw [hk] at hg
        rw [scanAux_succ_found keys size key f idx hg] at h
        obtain rfl : idx = j := Option.some.inj h
        exact ⟨hidx, hg⟩
      · rw [scanAux_succ_step keys size key f idx k hg hk] at h
        have hsize : 0 < size := Nat.lt_of_le_of_lt (Nat.zero_le idx) hidx
        exact ih ((idx + 1) % size) j (Nat.mod_lt _ hsize) h

theorem scanAux_none_of_absent (keys : List (Option Key)) (size : Nat) (key : Key)
    (habs : ∀ p, p < keys.length → keys.getD p none ≠ some key) :
    ∀ fuel idx, scanAux keys size key fuel idx = none := by
  intro fuel
  induction fuel with
  | zero => intro idx; rfl
  | succ f ih =>
    intro idx
    cases hg : keys.getD idx none with
    | none => exact scanAux_succ_empty keys size key f idx hg
    | some k =>
      have hlt : idx < keys.length := by
        by_contra hge
        rw [getD_of_length_le keys idx none (Nat.le_of_not_lt hge)] at hg
        exact Option.noConfusion hg
      have hk : k ≠ key := fun he => habs idx hlt (he ▸ hg)
      rw [scanAux_succ_step keys size key f idx k hg hk]
      exact ih ((idx + 1) % size)

theorem scanAux_finds_of_full (keys : List (Option Key)) (size : Nat) (key : Key)
    (hfull : ∀ j, j < size → keys.getD j none ≠ none) :
    ∀ fuel idx, idx < size →
      (∃ s, s < fuel ∧ keys.getD ((idx + s) % size) none = some key) →
      ∃ j, j < size ∧ scanAux keys size key fuel idx = some j ∧
        keys.getD j none = some key := by
  intro fuel
  induction fuel with
  | zero =>
    intro idx hidx h
    obtain ⟨s, hs, _⟩ := h
    exact absurd hs (Nat.not_lt_zero s)
  | succ f ih =>
    intro idx hidx h
    have hsize : 0 < size := Nat.lt_of_le_of_lt (Nat.zero_le idx) hidx
    by_cases hkey : keys.getD idx none = some key
    · exact ⟨idx, hidx, scanAux_succ_found keys size key f idx hkey, hkey⟩
    · cases hg : keys.getD idx none with
      | none => exact absurd hg (hfull idx hidx)
      | some k =>
        have hk : k ≠ key := fun he => hkey (he ▸ hg)
        have harith : ∀ s : Nat, ((idx + 1) % size + s) % size = (idx + (s + 1)) % size := by
          intro s
          rw [Nat.mod_add_mod]
          have : idx + 1 + s = idx + (s + 1) := by omega
          rw [this]
        obtain ⟨s, hs, hsk⟩ := h
        cases s with
        | zero =>
          rw [Nat.add_zero, Nat.mod_eq_of_lt hidx] at hsk
          exact absurd hsk hkey
        | succ s2 =>
          have hidx2 : (idx + 1) % size < size := Nat.mod_lt _ hsize
          obtain ⟨j, hj, hscan, hjk⟩ := ih ((idx + 1) % size) hidx2
            ⟨s2, by omega, by rw [harith s2]; exact hsk⟩
          exact ⟨j, hj, by rw [scanAux_succ_step keys size key f idx k hg hk]; exact hscan, hjk⟩

theorem scanAux_set_of_findSlot (keys : List (Option Key)) (size : Nat) (key : Key)
    (hlen : keys.length = size) :
    ∀ fuel idx i, idx < size →
      findSlotAux keys size key fuel idx = some i →
      scanAux (keys.set i (some key)) size key fuel idx = some i := by
  intro fuel
  induction fuel with
  | zero =>
    intro idx i hidx h
    simp [findSlotAux] at h
  | succ f ih =>
    intro idx i hidx h
    have hsize : 0 < size := Nat.lt_of_le_of_lt (Nat.zero_le idx) hidx
    have hi : i < size := findSlotAux_lt keys size key (f + 1) idx i hidx h
    have hfdef : findSlotAux keys size key (f + 1) idx =
        if keys.getD idx none = none ∨ keys.getD idx none = some key then some idx
        else findSlotAux keys size key f ((idx + 1) % size) := rfl
    by_cases hstop : keys.getD idx none = none ∨ keys.getD idx none = some key
    · rw [hfdef, if_pos hstop] at h
      obtain rfl : idx = i := Option.some.inj h
      exact scanAux_succ_found _ size key f idx
        (getD_set_self keys idx (some key) none (hlen ▸ hidx))
    · rw [hfdef, if_neg hstop] at h
      push_neg at hstop
      obtain ⟨hne, hnk⟩ := hstop
      by_cases hii : idx = i
      · subst hii
        exact scanAux_succ_found _ size key f idx
          (getD_set_self keys idx (some key) none (hlen ▸ hidx))
      · have hg : (keys.set i (some key)).getD idx none = keys.getD idx none :=
          getD_set_ne keys i idx (some key) none hii
        cases hgv : keys.getD idx none with
        | none => exact absurd hgv hne
        | some k2 =>
          have hk2 : k2 ≠ key := fun he => hnk (he ▸ hgv)
          rw [scanAux_succ_step _ size key f idx k2 (hg.trans hgv) hk2]
          exact ih ((idx + 1) % size) i (Nat.mod_lt _ hsize) h

theorem findSlotAux_set_of_findSlot (keys : List (Option Key)) (size : Nat) (key : Key)
    (hlen : keys.length = size) :
    ∀ fuel idx i, idx < size →
      findSlotAux keys size key fuel idx = some i →
      findSlotAux (keys.set i (some key)) size key fuel idx = some i := by
  intro fuel
  induction fuel with
  | zero =>
    intro idx i hidx h
    simp [findSlotAux] at h
  | succ f ih =>
    intro idx i hidx h
    have hsize : 0 < size := Nat.lt_of_le_of_lt (Nat.zero_le idx) hidx
    have hi : i < size := findSlotAux_lt keys size key (f + 1) idx i hidx h
    have hfdef : findSlotAux keys size key (f + 1) idx =
        if keys.getD idx none = none ∨ keys.getD idx none = some key then some idx
        else findSlotAux keys size key f ((idx + 1) % size) := rfl
    have hfdef2 : findSlotAux (keys.set i (some key)) size key (f + 1) idx =
        if (keys.set i (some key)).getD idx none = none ∨
            (keys.set i (some key)).getD idx none = some key then some idx
        else findSlotAux (keys.set i (some key)) size key f ((idx + 1) % size) := rfl
    by_cases hstop : keys.getD idx none = none ∨ keys.getD idx none = some key
    · rw [hfdef, if_pos hstop] at h
      obtain rfl : idx = i := Option.some.inj h
      rw [hfdef2, if_pos (Or.inr (getD_set_self keys idx (some key) none (hlen ▸ hidx)))]
    · rw [hfdef, if_neg hstop] at h
      push_neg at hstop
      obtain ⟨hne, hnk⟩ := hstop
      by_cases hii : idx = i
      · subst hii
        rw [hfdef2, if_pos (Or.inr (getD_set_self keys idx (some key) none (hlen ▸ hidx)))]
      · have hg : (keys.set i (some key)).getD idx none = keys.getD idx none :=
          getD_set_ne keys i idx (some key) none hii
        have hstop2 : ¬((keys.set i (some key)).getD idx none = none ∨
            (keys.set i (some key)).getD idx none = some key) := by
          push_neg
          rw [hg]
          exact ⟨hne, hnk⟩
        rw [hfdef2, if_neg hstop2]
        exact ih ((idx + 1) % size) i (Nat.mod_lt _ hsize) h

/-! ## Unpacking the probing-table operations -/

theorem insert_success_cases {V : Type} (ht ht2 : HashTableLinearProbing V)
    (key : Key) (value : V) (hpos : 0 < ht.size)
    (h : ht.insert key value = some ht2) :
    ∃ i, i < ht.size ∧
      findSlotAux ht.keys ht.size key ht.size (hashFunction key ht.size) = some i ∧
      ht2.size = ht.size ∧
      ht2.keys = ht.keys.set i (some key) ∧
      ht2.table = ht.table.set i (some value) ∧
      ((ht.keys.getD i none = none ∧ ht2.count = ht.count + 1) ∨
       (ht.keys.getD i none = some key ∧ ht2.count = ht.count)) ∧
      ¬ (ht.size : Int) ≤ ht.count := by
  unfold HashTableLinearProbing.insert at h
  by_cases hguard : (ht.size : Int) ≤ ht.count
  · rw [if_pos hguard] at h
    exact Option.noConfusion h
  · rw [if_neg hguard] at h
    cases hfind : ht.findSlot key with
    | none =>
      rw [hfind] at h
      exact Option.noConfusion h
    | some i =>
      rw [hfind] at h
      have hi : i < ht.size :=
        findSlotAux_lt ht.keys ht.size key ht.size (hashFunction key ht.size) i
          (hashFunction_lt key ht.size hpos) hfind
      obtain ⟨t, _, _, hstop, _⟩ :=
        findSlotAux_some_spec ht.keys ht.size key ht.size (hashFunction key ht.size) i
          (hashFunction_lt key ht.size hpos) hfind
      cases Option.some.inj h
      refine ⟨i, hi, hfind, rfl, rfl, rfl, ?_, hguard⟩
      rcases hstop with hnone | hsome
      · left
        refine ⟨hnone, ?_⟩
        show (if ht.keys.getD i none ≠ some key then ht.count + 1 else ht.count) = ht.count + 1
        rw [if_pos]
        rw [hnone]
        exact fun hc => Option.noConfusion hc
      · right
        refine ⟨hsome, ?_⟩
        show (if ht.keys.getD i none ≠ some key then ht.count + 1 else ht.count) = ht.count
        rw [if_neg]
        rw [hsome]
        exact fun hc => hc rfl

theorem insert_succeeds {V : Type} (ht : HashTableLinearProbing V)
    (key : Key) (value : V)
    (hlen : ht.keys.length = ht.size)
    (hcount : ht.count = (occCount ht.keys : Int))
    (hlt : ht.count < (ht.size : Int)) (hpos : 0 < ht.size) :
    ∃ ht2, ht.insert key value = some ht2 := by
  have hocc : occCount ht.keys < ht.size := by
    rw [hcount] at hlt
    exact_mod_cast hlt
  have hempty : ∃ j, j < ht.size ∧ ht.keys.getD j none = none := by
    obtain ⟨j, hj, hg⟩ := exists_empty_of_occCount_lt ht.keys (by rw [hlen]; exact hocc)
    exact ⟨j, hlen ▸ hj, hg⟩
  have hfind := findSlotAux_ne_none_of_empty ht.keys ht.size key
    (hashFunction key ht.size) (hashFunction_lt key ht.size hpos) hempty
  cases hfs : ht.findSlot key with
  | none => exact absurd hfs hfind
  | some i =>
    have hne : ht.insert key value ≠ none := by
      unfold HashTableLinearProbing.insert
      rw [if_neg (not_le.mpr hlt), hfs]
      exact fun hco => Option.noConfusion hco
    exact Option.ne_none_iff_exists'.mp hne

theorem insert_WFP {V : Type} (ht ht2 : HashTableLinearProbing V)
    (key : Key) (value : V)
    (hwf : ht.WFP) (hpos : 0 < ht.size)
    (h : ht.insert key value = some ht2) :
    ht2.WFP ∧ ht2.size = ht.size ∧
      (∀ k2 : Key, storedIn ht2 k2 ↔ (storedIn ht k2 ∨ k2 = key)) ∧
      (¬ storedIn ht key → ht2.count = ht.count + 1) := by
  obtain ⟨hkl, htl, hc⟩ := hwf
  obtain ⟨i, hi, hfind, hsz, hks, htb, hcnt, _⟩ :=
    insert_success_cases ht ht2 key value hpos h
  have hilen : i < ht.keys.length := by rw [hkl]; exact hi
  have hwf2 : ht2.WFP := by
    refine ⟨by rw [hks, List.length_set, hkl, hsz],
            by rw [htb, List.length_set, htl, hsz], ?_⟩
    rcases hcnt with ⟨hgn, hcn⟩ | ⟨hgs, hcn⟩
    · rw [hcn, hks, occCount_set_some_of_none ht.keys i key hilen hgn, hc]
      push_cast
      ring
    · rw [hcn, hks, occCount_set_some_of_some ht.keys i key key hgs, hc]
  have hstored : ∀ k2 : Key, storedIn ht2 k2 ↔ (storedIn ht k2 ∨ k2 = key) := by
    intro k2
    unfold storedIn
    rw [hks, mem_iff_getD, mem_iff_getD]
    constructor
    · rintro ⟨p, hp, hg⟩
      rw [List.length_set] at hp
      by_cases hpi : p = i
      · subst hpi
        rw [getD_set_self ht.keys p (some key) none hp] at hg
        exact Or.inr (Option.some.inj hg).symm
      · rw [getD_set_ne ht.keys i p (some key) none hpi] at hg
        exact Or.inl ⟨p, hp, hg⟩
    · rintro (⟨p, hp, hg⟩ | hkk)
      · by_cases hpi : p = i
        · subst hpi
          rcases hcnt with ⟨hgn, _⟩ | ⟨hgs, _⟩
          · rw [hgn] at hg
            exact Option.noConfusion hg
          · rw [hgs] at hg
            refine ⟨p, by rw [List.length_set]; exact hp, ?_⟩
            rw [getD_set_self ht.keys p (some key) none hp, hg]
        · refine ⟨p, by rw [List.length_set]; exact hp, ?_⟩
          rw [getD_set_ne ht.keys i p (some key) none hpi]
          exact hg
      · subst hkk
        exact ⟨i, by rw [List.length_set]; exact hilen,
          getD_set_self ht.keys i (some k2) none hilen⟩
  refine ⟨hwf2, hsz, hstored, ?_⟩
  intro hns
  rcases hcnt with ⟨_, hcn⟩ | ⟨hgs, _⟩
  · exact hcn
  · exact absurd ((mem_iff_getD ht.keys key).mpr ⟨i, hilen, hgs⟩) hns

theorem remove_cases {V : Type} (ht : HashTableLinearProbing V) (key : Key)
    (hpos : 0 < ht.size) :
    (ht.remove key = ht ∧ ht.retrieve key = none) ∨
    (∃ j, j < ht.size ∧ ht.keys.getD j none = some key ∧
      ht.remove key = ht.clearSlot j ∧
      ht.retrieve key = ht.table.getD j none) := by
  cases hscan : scanAux ht.keys ht.size key ht.size (hashFunction key ht.size) with
  | none =>
    left
    constructor
    · unfold HashTableLinearProbing.remove
      rw [hscan]
    · unfold HashTableLinearProbing.retrieve
      rw [hscan]
  | some j =>
    right
    obtain ⟨hj, hjk⟩ := scanAux_some_spec ht.keys ht.size key ht.size
      (hashFunction key ht.size) j (hashFunction_lt key ht.size hpos) hscan
    refine ⟨j, hj, hjk, ?_, ?_⟩
    · unfold HashTableLinearProbing.remove
      rw [hscan]
    · unfold HashTableLinearProbing.retrieve
      rw [hscan]

theorem remove_WFP {V : Type} (ht : HashTableLinearProbing V) (key : Key)
    (hwf : ht.WFP) (hpos : 0 < ht.size) :
    (ht.remove key).WFP ∧ (ht.remove key).size = ht.size := by
  rcases remove_cases ht key hpos with ⟨heq, _⟩ | ⟨j, hj, hjk, heq, _⟩
  · rw [heq]
    exact ⟨hwf, rfl⟩
  · rw [heq]
    obtain ⟨hkl, htl, hc⟩ := hwf
    have hocc := occCount_set_none_of_some ht.keys j key hjk
    refine ⟨⟨?_, ?_, ?_⟩, rfl⟩
    · show (ht.keys.set j none).length = ht.size
      rw [List.length_set, hkl]
    · show (ht.table.set j none).length = ht.size
      rw [List.length_set, htl]
    · show ht.count - 1 = (occCount (ht.keys.set j none) : Int)
      rw [hc]
      omega

theorem full_all_occupied {V : Type} (ht : HashTableLinearProbing V)
    (hwf : ht.WFP) (hfull : (ht.size : Int) ≤ ht.count) :
    ∀ j, j < ht.size → ht.keys.getD j none ≠ none := by
  obtain ⟨hkl, _, hc⟩ := hwf
  have h1 : occCount ht.keys ≤ ht.keys.length := occCount_le_length ht.keys
  have h2 : occCount ht.keys = ht.keys.length := by
    rw [hc] at hfull
    rw [hkl]
    omega
  intro j hj
  exact all_occupied_of_occCount_eq ht.keys h2 j (by rw [hkl]; exact hj)

theorem not_stored_clearSlot {V : Type} (ht : HashTableLinearProbing V)
    (key : Key) (j : Nat) (hj : j < ht.keys.length)
    (hjk : ht.keys.getD j none = some key)
    (huniq : atMostOneSlot ht.keys key) :
    ∀ p, p < (ht.keys.set j none).length →
      (ht.keys.set j none).getD p none ≠ some key := by
  intro p hp
  rw [List.length_set] at hp
  by_cases hpj : p = j
  · subst hpj
    rw [getD_set_self ht.keys p none none hp]
    exact fun hco => Option.noConfusion hco
  · rw [getD_set_ne ht.keys j p none none hpj]
    intro hg
    exact hpj (huniq p hp j hj hg hjk)

/-! ## Bulk insertion and reachable-state invariants -/

theorem insertList_invariant {V : Type} :
    ∀ (inputs : List (Key × V)) (t : HashTableLinearProbing V),
      t.WFP → 0 < t.size →
      t.count + inputs.length ≤ (t.size : Int) →
      (inputs.map Prod.fst).Nodup →
      (∀ k, k ∈ inputs.map Prod.fst → ¬ storedIn t k) →
      ∃ t2, insertList t inputs = some t2 ∧ t2.WFP ∧ t2.size = t.size ∧
        t2.count = t.count + inputs.length ∧
        (∀ k2, storedIn t2 k2 ↔ (storedIn t k2 ∨ k2 ∈ inputs.map Prod.fst)) := by
  intro inputs
  induction inputs with
  | nil =>
    intro t hwf hpos hcap hnd hns
    exact ⟨t, rfl, hwf, rfl, by simp, by simp⟩
  | cons p rest ih =>
    obtain ⟨k, v⟩ := p
    intro t hwf hpos hcap hnd hns
    have hlen1 : (((k, v) :: rest).length : Int) = (rest.length : Int) + 1 := by
      push_cast [List.length_cons]
      ring
    have hklt : t.count < (t.size : Int) := by
      rw [hlen1] at hcap
      omega
    obtain ⟨t1, ht1⟩ := insert_succeeds t k v hwf.1 hwf.2.2 hklt hpos
    obtain ⟨hwf1, hsz1, hst1, hcnt1⟩ := insert_WFP t t1 k v hwf hpos ht1
    have hknotmem : ¬ storedIn t k := hns k (by simp)
    have hc1 : t1.count = t.count + 1 := hcnt1 hknotmem
    have hpos1 : 0 < t1.size := by rw [hsz1]; exact hpos
    have hnd0 : k ∉ rest.map Prod.fst ∧ (rest.map Prod.fst).Nodup :=
      List.nodup_cons.mp (by simpa using hnd)
    have hns1 : ∀ k2, k2 ∈ rest.map Prod.fst → ¬ storedIn t1 k2 := by
      intro k2 hk2 hst
      rcases (hst1 k2).mp hst with hold | hkk
      · exact hns k2 (by simp [hk2]) hold
      · exact hnd0.1 (hkk ▸ hk2)
    have hcap1 : t1.count + rest.length ≤ (t1.size : Int) := by
      rw [hc1, hsz1]
      rw [hlen1] at hcap
      omega
    obtain ⟨t2, hil, hwf2, hsz2, hcnt2, hst2⟩ := ih t1 hwf1 hpos1 hcap1 hnd0.2 hns1
    refine ⟨t2, ?_, hwf2, by rw [hsz2, hsz1], ?_, ?_⟩
    · have hd : insertList t ((k, v) :: rest) =
          match t.insert k v with
          | some t3 => insertList t3 rest
          | none => none := rfl
      rw [hd, ht1]
      exact hil
    · rw [hcnt2, hc1, hlen1]
      ring
    · intro k2
      rw [hst2 k2]
      constructor
      · rintro (hst | hmem)
        · rcases (hst1 k2).mp hst with h1 | h2
          · exact Or.inl h1
          · exact Or.inr (by simp [h2])
        · exact Or.inr (by simp [hmem])
      · rintro (hst | hmem)
        · exact Or.inl ((hst1 k2).mpr (Or.inl hst))
        · rcases (by simpa using hmem : k2 = k ∨ k2 ∈ rest.map Prod.fst) with h1 | h2
          · exact Or.inl ((hst1 k2).mpr (Or.inr h1))
          · exact Or.inr h2

theorem reachable_wf {V : Type} (ht : HashTableLinearProbing V)
    (h : Reachable ht) : ht.WFP ∧ 0 < ht.size := by
  induction h with
  | init size hpos =>
    refine ⟨⟨?_, ?_, ?_⟩, hpos⟩
    · simp [HashTableLinearProbing.init]
    · simp [HashTableLinearProbing.init]
    · simp [HashTableLinearProbing.init, occCount_replicate]
  | insert ht ht2 k v hr hins ih =>
    obtain ⟨hwf, hpos⟩ := ih
    obtain ⟨hwf2, hsz2, _, _⟩ := insert_WFP ht ht2 k v hwf hpos hins
    exact ⟨hwf2, by rw [hsz2]; exact hpos⟩
  | remove ht k hr ih =>
    obtain ⟨hwf, hpos⟩ := ih
    obtain ⟨hwf2, hsz2⟩ := remove_WFP ht k hwf hpos
    exact ⟨hwf2, by rw [hsz2]; exact hpos⟩

/-! ## Chaining-table level helpers -/

theorem chaining_insert_spec {V : Type} (ht : HashTableChaining V) (key : Key)
    (value : V) (hlen : ht.table.length = ht.size) (hpos : 0 < ht.size) :
    (ht.insert key value).size = ht.size ∧
    (ht.insert key value).table.length = ht.size ∧
    (ht.insert key value).bucket key = insertChain key value (ht.bucket key) := by
  refine ⟨rfl, ?_, ?_⟩
  · show (ht.table.set (hashFunction key ht.size)
      (insertChain key value (ht.table.getD (hashFunction key ht.size) []))).length = ht.size
    rw [List.length_set, hlen]
  · show (ht.table.set (hashFunction key ht.size)
        (insertChain key value (ht.table.getD (hashFunction key ht.size) []))).getD
        (hashFunction key ht.size) [] =
      insertChain key value (ht.table.getD (hashFunction key ht.size) [])
    exact getD_set_self _ _ _ _ (by rw [hlen]; exact hashFunction_lt key ht.size hpos)

theorem chaining_remove_spec {V : Type} (ht : HashTableChaining V) (key : Key)
    (hlen : ht.table.length = ht.size) (hpos : 0 < ht.size) :
    (ht.remove key).size = ht.size ∧
    (ht.remove key).table.length = ht.size ∧
    (ht.remove key).bucket key = removeChain key (ht.bucket key) := by
  refine ⟨rfl, ?_, ?_⟩
  · show (ht.table.set (hashFunction key ht.size)
      (removeChain key (ht.table.getD (hashFunction key ht.size) []))).length = ht.size
    rw [List.length_set, hlen]
  · show (ht.table.set (hashFunction key ht.size)
        (removeChain key (ht.table.getD (hashFunction key ht.size) []))).getD
        (hashFunction key ht.size) [] =
      removeChain key (ht.table.getD (hashFunction key ht.size) [])
    exact getD_set_self _ _ _ _ (by rw [hlen]; exact hashFunction_lt key ht.size hpos)

theorem chaining_remove_noop {V : Type} (ht : HashTableChaining V) (key : Key)
    (h : removeChain key (ht.bucket key) = ht.bucket key) :
    ht.remove key = ht := by
  show { ht with table := (ht.table.set (hashFunction key ht.size)
    (removeChain key (ht.table.getD (hashFunction key ht.size) []))) } = ht
  rw [show removeChain key (ht.table.getD (hashFunction key ht.size) []) =
    ht.table.getD (hashFunction key ht.size) [] from h]
  rw [set_getD_eq_self]

/-! ## Claim theorems -/

/-- C1: for every key (string or integer) and every value, on any table of
positive size (with its backing array of the allocated length), `insert`
followed immediately by `retrieve` of the same key returns that value, in
both the chaining and the linear-probing implementation; for probing this
holds whenever `insert` did not fail with the table-full error. -/
theorem C1_insert_retrieve_roundtrip {V : Type} (key : Key) (value : V)
    (hc : HashTableChaining V) (hp : HashTableLinearProbing V)
    (hclen : hc.table.length = hc.size) (hcpos : 0 < hc.size)
    (hpk : hp.keys.length = hp.size) (hpt : hp.table.length = hp.size)
    (hppos : 0 < hp.size) :
    (hc.insert key value).retrieve key = some value ∧
    (∀ hp2, hp.insert key value = some hp2 → hp2.retrieve key = some value) := by
  constructor
  · show retrieveChain key ((hc.insert key value).bucket key) = some value
    rw [(chaining_insert_spec hc key value hclen hcpos).2.2]
    exact retrieve_insertChain key value (hc.bucket key)
  · intro hp2 hins
    obtain ⟨i, hi, hfind, hsz, hks, htb, _, _⟩ :=
      insert_success_cases hp hp2 key value hppos hins
    have hscan : scanAux (hp.keys.set i (some key)) hp.size key hp.size
        (hashFunction key hp.size) = some i :=
      scanAux_set_of_findSlot hp.keys hp.size key hpk hp.size
        (hashFunction key hp.size) i (hashFunction_lt key hp.size hppos) hfind
    unfold HashTableLinearProbing.retrieve
    rw [hsz, hks, hscan, htb]
    exact getD_set_self hp.table i (some value) none (by rw [hpt]; exact hi)

/-- Witness for C1 at concrete inputs: size-1 tables, key `0`, value `7`. -/
theorem C1_insert_retrieve_roundtrip_witness :
    ((HashTableChaining.init Nat 1).insert (Key.int 0) 7).retrieve (Key.int 0) = some 7 ∧
    HashTableLinearProbing.retrieve
      { size := 1, table := [some 7], keys := [some (Key.int 0)], count := 1 }
      (Key.int 0) = some 7 := by
  have h := C1_insert_retrieve_roundtrip (Key.int 0) 7
    (HashTableChaining.init Nat 1) (HashTableLinearProbing.init Nat 1)
    (by decide) (by decide) (by decide) (by decide) (by decide)
  exact ⟨h.1, h.2 { size := 1, table := [some 7], keys := [some (Key.int 0)], count := 1 }
    (by decide)⟩

/-- C2: in the linear-probing implementation a remove can sever the probe
path of a key that is still logically present. Concretely, in a size-3
table, key `0` hashes to slot 0 and key `3` also hashes to slot 0 so it is
probed forward to slot 1; after removing key `0` (leaving slot 0 empty),
`retrieve` of key `3` — inserted and never removed (the only removed key,
`0`, differs from `3`) — stops at the emptied home slot and incorrectly
reports absent, while before the removal it still returned `30`. -/
theorem C2_remove_severs_probe_path :
    (Key.int 3 ≠ Key.int 0) ∧
    ((((HashTableLinearProbing.init Nat 3).insert (Key.int 0) 10).bind
        (fun t => t.insert (Key.int 3) 30)).map
        (fun t => t.retrieve (Key.int 3)) = some (some 30)) ∧
    ((((HashTableLinearProbing.init Nat 3).insert (Key.int 0) 10).bind
        (fun t => t.insert (Key.int 3) 30)).map
        (fun t => (t.remove (Key.int 0)).retrieve (Key.int 3)) = some none) := by
  refine ⟨by decide, by decide, by decide⟩

/-- C3: for every `N > 0`, a fresh linear-probing table of size `N` accepts
`N` inserts of pairwise-distinct keys without error, ending with `count = N`;
every further insert then fails with the table-full error (in the source the
exception is raised before any mutation, and in this embedding a failed
insert produces no new state, so the table is unchanged); and after removing
any one present key, one more insert (of any key, in particular a new
distinct one) succeeds. -/
theorem C3_capacity_boundary (V : Type) (N : Nat) (hN : 0 < N)
    (inputs : List (Key × V)) (hlen : inputs.length = N)
    (hnd : (inputs.map Prod.fst).Nodup) :
    ∃ t, insertList (HashTableLinearProbing.init V N) inputs = some t ∧
      t.count = (N : Int) ∧
      (∀ (k2 : Key) (v2 : V), t.insert k2 v2 = none) ∧
      (∀ k, k ∈ inputs.map Prod.fst → ∀ (k2 : Key) (v2 : V),
        ∃ t3, (t.remove k).insert k2 v2 = some t3) := by
  have hwf0 : (HashTableLinearProbing.init V N).WFP := by
    refine ⟨?_, ?_, ?_⟩
    · simp [HashTableLinearProbing.init]
    · simp [HashTableLinearProbing.init]
    · simp [HashTableLinearProbing.init, occCount_replicate]
  have hpos0 : 0 < (HashTableLinearProbing.init V N).size := hN
  have hns0 : ∀ k, k ∈ inputs.map Prod.fst →
      ¬ storedIn (HashTableLinearProbing.init V N) k := by
    intro k _ hst
    have hmem : some k ∈ List.replicate N (none : Option Key) := hst
    exact Option.noConfusion (List.eq_of_mem_replicate hmem)
  have hcap0 : (HashTableLinearProbing.init V N).count + inputs.length ≤
      ((HashTableLinearProbing.init V N).size : Int) := by
    show (0 : Int) + (inputs.length : Int) ≤ (N : Int)
    rw [hlen]
    omega
  obtain ⟨t, hil, hwf, hsz, hcnt, hst⟩ :=
    insertList_invariant inputs (HashTableLinearProbing.init V N) hwf0 hpos0 hcap0 hnd hns0
  have hszN : t.size = N := hsz
  have hcntN : t.count = (N : Int) := by
    rw [hcnt, hlen]
    show (0 : Int) + (N : Int) = (N : Int)
    ring
  have hposT : 0 < t.size := by rw [hszN]; exact hN
  refine ⟨t, hil, hcntN, ?_, ?_⟩
  · intro k2 v2
    have hfullc : (t.size : Int) ≤ t.count := by
      rw [hszN, hcntN]
    unfold HashTableLinearProbing.insert
    rw [if_pos hfullc]
  · intro k hk k2 v2
    have hstk : storedIn t k := (hst k).mpr (Or.inr hk)
    have hfullc : (t.size : Int) ≤ t.count := by
      rw [hszN, hcntN]
    have hfull : ∀ j, j < t.size → t.keys.getD j none ≠ none :=
      full_all_occupied t hwf hfullc
    obtain ⟨p, hp, hpg⟩ := (mem_iff_getD t.keys k).mp hstk
    have hplt : p < t.size := by rw [← hwf.1]; exact hp
    obtain ⟨s, hs, hreach⟩ := probe_reaches t.size (hashFunction k t.size) p
      (hashFunction_lt k t.size hposT) hplt
    obtain ⟨j, hj, hscan, hjg⟩ := scanAux_finds_of_full t.keys t.size k hfull
      t.size (hashFunction k t.size) (hashFunction_lt k t.size hposT)
      ⟨s, hs, by rw [hreach]; exact hpg⟩
    have hrem : t.remove k = t.clearSlot j := by
      unfold HashTableLinearProbing.remove
      rw [hscan]
    obtain ⟨hwfr, hszr⟩ := remove_WFP t k hwf hposT
    have hcntr : (t.remove k).count = t.count - 1 := by
      rw [hrem]
      rfl
    have hltr : (t.remove k).count < ((t.remove k).size : Int) := by
      rw [hcntr, hszr, hszN, hcntN]
      omega
    exact insert_succeeds (t.remove k) k2 v2 hwfr.1 hwfr.2.2 hltr
      (by rw [hszr]; exact hposT)

/-- Witness for C3 at `N = 2` with the distinct integer keys `0` and `1`. -/
theorem C3_capacity_boundary_witness :
    ∃ t, insertList (HashTableLinearProbing.init Nat 2)
        [(Key.int 0, 10), (Key.int 1, 11)] = some t ∧
      t.count = (2 : Int) ∧
      (∀ (k2 : Key) (v2 : Nat), t.insert k2 v2 = none) ∧
      (∀ k, k ∈ [(Key.int 0, 10), (Key.int 1, 11)].map Prod.fst →
        ∀ (k2 : Key) (v2 : Nat), ∃ t3, (t.remove k).insert k2 v2 = some t3) :=
  C3_capacity_boundary Nat 2 (by decide) [(Key.int 0, 10), (Key.int 1, 11)]
    (by decide) (by decide)

/-- C4: inserting the same key twice with different values leaves exactly
one entry for that key and `retrieve` then returns the second value.
In chaining (under the source invariant that a bucket holds at most one
node per key) the bucket holds exactly one node for the key afterwards and
the chain length does not grow on the second insert; in probing (when the
table is not full after the first insert, so the second insert does not hit
the table-full error — see C10) the second insert succeeds, `count` does
not grow, and `retrieve` returns the second value. -/
theorem C4_update_semantics {V : Type} (key : Key) (v1 v2 : V)
    (hc : HashTableChaining V) (hp : HashTableLinearProbing V)
    (hclen : hc.table.length = hc.size) (hcpos : 0 < hc.size)
    (hcdup : countKey key (hc.bucket key) ≤ 1)
    (hpk : hp.keys.length = hp.size) (hpt : hp.table.length = hp.size)
    (hppos : 0 < hp.size) :
    (countKey key (((hc.insert key v1).insert key v2).bucket key) = 1 ∧
     (((hc.insert key v1).insert key v2).bucket key).length =
       ((hc.insert key v1).bucket key).length ∧
     ((hc.insert key v1).insert key v2).retrieve key = some v2) ∧
    (∀ hp1, hp.insert key v1 = some hp1 → hp1.count < (hp1.size : Int) →
      ∃ hp2, hp1.insert key v2 = some hp2 ∧ hp2.count = hp1.count ∧
        hp2.retrieve key = some v2) := by
  constructor
  · obtain ⟨hsz1, hlen1, hb1⟩ := chaining_insert_spec hc key v1 hclen hcpos
    have hpos1 : 0 < (hc.insert key v1).size := by rw [hsz1]; exact hcpos
    obtain ⟨hsz2, hlen2, hb2⟩ :=
      chaining_insert_spec (hc.insert key v1) key v2 (by rw [hlen1, hsz1]) hpos1
    have hcnt1 : countKey key ((hc.insert key v1).bucket key) = 1 := by
      rw [hb1, countKey_insertChain]
      have : countKey key (hc.bucket key) = 0 ∨ countKey key (hc.bucket key) = 1 := by
        omega
      rcases this with h0 | h0 <;> simp [h0]
    refine ⟨?_, ?_, ?_⟩
    · rw [hb2, countKey_insertChain, hcnt1]
      exact max_self 1
    · rw [hb2, length_insertChain, hcnt1]
      simp
    · show retrieveChain key (((hc.insert key v1).insert key v2).bucket key) = some v2
      rw [hb2]
      exact retrieve_insertChain key v2 ((hc.insert key v1).bucket key)
  · intro hp1 h1 hlt
    obtain ⟨i, hi, hfind, hsz, hks, htb, _, _⟩ :=
      insert_success_cases hp hp1 key v1 hppos h1
    have hgetD1 : hp1.keys.getD i none = some key := by
      rw [hks]
      exact getD_set_self hp.keys i (some key) none (by rw [hpk]; exact hi)
    have hfind1 : hp1.findSlot key = some i := by
      show findSlotAux hp1.keys hp1.size key hp1.size (hashFunction key hp1.size) = some i
      rw [hks, hsz]
      exact findSlotAux_set_of_findSlot hp.keys hp.size key hpk hp.size
        (hashFunction key hp.size) i (hashFunction_lt key hp.size hppos) hfind
    have h2 : hp1.insert key v2 = some { hp1 with
        keys := hp1.keys.set i (some key)
        table := hp1.table.set i (some v2)
        count := if hp1.keys.getD i none ≠ some key then hp1.count + 1 else hp1.count } := by
      unfold HashTableLinearProbing.insert
      rw [if_neg (not_le.mpr hlt), hfind1]
    refine ⟨_, h2, ?_, ?_⟩
    · show (if hp1.keys.getD i none ≠ some key then hp1.count + 1 else hp1.count) = hp1.count
      rw [if_neg (fun hcon => hcon hgetD1)]
    · have hks2 : (hp1.keys.set i (some key)) = hp.keys.set i (some key) := by
        rw [hks, List.set_set]
      have htb2 : (hp1.table.set i (some v2)) = hp.table.set i (some v2) := by
        rw [htb, List.set_set]
      have hscan : scanAux (hp.keys.set i (some key)) hp.size key hp.size
          (hashFunction key hp.size) = some i :=
        scanAux_set_of_findSlot hp.keys hp.size key hpk hp.size
          (hashFunction key hp.size) i (hashFunction_lt key hp.size hppos) hfind
      show HashTableLinearProbing.retrieve { hp1 with
        keys := hp1.keys.set i (some key)
        table := hp1.table.set i (some v2)
        count := if hp1.keys.getD i none ≠ some key then hp1.count + 1 else hp1.count }
        key = some v2
      unfold HashTableLinearProbing.retrieve
      rw [show ({ hp1 with
        keys := hp1.keys.set i (some key)
        table := hp1.table.set i (some v2)
        count := if hp1.keys.getD i none ≠ some key then hp1.count + 1 else hp1.count } :
          HashTableLinearProbing V).size = hp.size from hsz]
      rw [show ({ hp1 with
        keys := hp1.keys.set i (some key)
        table := hp1.table.set i (some v2)
        count := if hp1.keys.getD i none ≠ some key then hp1.count + 1 else hp1.count } :
          HashTableLinearProbing V).keys = hp.keys.set i (some key) from hks2]
      rw [hscan]
      rw [show ({ hp1 with
        keys := hp1.keys.set i (some key)
        table := hp1.table.set i (some v2)
        count := if hp1.keys.getD i none ≠ some key then hp1.count + 1 else hp1.count } :
          HashTableLinearProbing V).table = hp.table.set i (some v2) from htb2]
      exact getD_set_self hp.table i (some v2) none (by rw [hpt]; exact hi)

/-- Witness for C4: size-2 tables, key `0` inserted with `5` then `6`. -/
theorem C4_update_semantics_witness :
    (countKey (Key.int 0)
        ((((HashTableChaining.init Nat 2).insert (Key.int 0) 5).insert
          (Key.int 0) 6).bucket (Key.int 0)) = 1 ∧
      ((((HashTableChaining.init Nat 2).insert (Key.int 0) 5).insert
          (Key.int 0) 6).bucket (Key.int 0)).length =
        (((HashTableChaining.init Nat 2).insert (Key.int 0) 5).bucket
          (Key.int 0)).length ∧
      (((HashTableChaining.init Nat 2).insert (Key.int 0) 5).insert
          (Key.int 0) 6).retrieve (Key.int 0) = some 6) ∧
    (∃ hp2, HashTableLinearProbing.insert
        { size := 2, table := [some 5, none], keys := [some (Key.int 0), none], count := 1 }
        (Key.int 0) 6 = some hp2 ∧
      hp2.count = (1 : Int) ∧ hp2.retrieve (Key.int 0) = some 6) := by
  have h := C4_update_semantics (Key.int 0) 5 6
    (HashTableChaining.init Nat 2) (HashTableLinearProbing.init Nat 2)
    (by decide) (by decide) (by decide) (by decide) (by decide) (by decide)
  exact ⟨h.1, h.2
    { size := 2, table := [some 5, none], keys := [some (Key.int 0), none], count := 1 }
    (by decide) (by decide)⟩

/-- C5 counterexample: the claim says that constructing a table with
non-positive size fails at construction time with a `ConfigurationError`.
No such check or error exists anywhere in the source: both `__init__`
methods are total (they only store `size` and allocate the arrays), which
the embedding reflects by total constructors. At the non-positive size `0`
construction therefore succeeds, yielding an ordinary table value with
empty backing arrays — and the first failure surfaces only later and as a
different error (inserting into the size-0 probing table trips the
table-full check `count >= size`, i.e. `0 >= 0`, not any configuration
error; hashing on a size-0 table would raise a division error). -/
theorem C5_counterexample_no_construction_error :
    (HashTableChaining.init Nat 0).size = 0 ∧
    (HashTableChaining.init Nat 0).table = [] ∧
    (HashTableLinearProbing.init Nat 0).size = 0 ∧
    (HashTableLinearProbing.init Nat 0).keys = [] ∧
    (HashTableLinearProbing.init Nat 0).insert (Key.int 5) 1 = none := by
  refine ⟨rfl, rfl, rfl, rfl, by decide⟩

/-- C5 amended: construction never validates `size` and cannot fail — a
table of non-positive size is constructed successfully in both
implementations (with the given size and empty backing arrays), there is no
`ConfigurationError` in the code, and no operation re-checks the size
either (on a size-0 probing table every insert instead fails with the
table-full error, since `count >= size` holds already at `0 >= 0`). -/
theorem C5_amended_construction_unvalidated (V : Type) :
    (HashTableChaining.init V 0).size = 0 ∧
    (HashTableChaining.init V 0).table = [] ∧
    (HashTableLinearProbing.init V 0).size = 0 ∧
    (HashTableLinearProbing.init V 0).table = [] ∧
    (HashTableLinearProbing.init V 0).keys = [] ∧
    (HashTableLinearProbing.init V 0).count = 0 ∧
    (∀ (k : Key) (v : V), (HashTableLinearProbing.init V 0).insert k v = none) := by
  refine ⟨rfl, rfl, rfl, rfl, rfl, rfl, ?_⟩
  intro k v
  have hcond : ((HashTableLinearProbing.init V 0).size : Int) ≤
      (HashTableLinearProbing.init V 0).count := by
    simp [HashTableLinearProbing.init]
  unfold HashTableLinearProbing.insert
  rw [if_pos hcond]

/-- C6: remove of a missing key is a silent no-op, removal is idempotent,
and retrieve after removal reports absent, in both implementations. The
hypotheses `countKey … ≤ 1` / `atMostOneSlot` state that the key occupies
at most one node/slot, which holds in every state the source can reach
(both inserts update in place rather than duplicating). For chaining,
"the table does not contain the key" is expressed on the key's home
bucket, the only place the three operations ever look. -/
theorem C6_remove_missing_noop_idempotent {V : Type} (key : Key)
    (hc : HashTableChaining V) (hp : HashTableLinearProbing V)
    (hclen : hc.table.length = hc.size) (hcpos : 0 < hc.size)
    (hcdup : countKey key (hc.bucket key) ≤ 1)
    (hpk : hp.keys.length = hp.size) (hppos : 0 < hp.size)
    (hpuniq : atMostOneSlot hp.keys key) :
    (countKey key (hc.bucket key) = 0 → hc.remove key = hc) ∧
    ((hc.remove key).remove key = hc.remove key) ∧
    ((hc.remove key).retrieve key = none) ∧
    ((∀ p, p < hp.keys.length → hp.keys.getD p none ≠ some key) →
      hp.remove key = hp) ∧
    ((hp.remove key).remove key = hp.remove key) ∧
    ((hp.remove key).retrieve key = none) := by
  obtain ⟨hrsz, hrlen, hrb⟩ := chaining_remove_spec hc key hclen hcpos
  have hc1count : countKey key ((hc.remove key).bucket key) = 0 := by
    rw [hrb, countKey_removeChain]
    omega
  refine ⟨?_, ?_, ?_, ?_, ?_, ?_⟩
  · intro hzero
    exact chaining_remove_noop hc key (removeChain_of_countKey_zero key _ hzero)
  · exact chaining_remove_noop (hc.remove key) key
      (removeChain_of_countKey_zero key _ hc1count)
  · show retrieveChain key ((hc.remove key).bucket key) = none
    exact retrieveChain_of_countKey_zero key _ hc1count
  · intro habs
    have hscan := scanAux_none_of_absent hp.keys hp.size key habs hp.size
      (hashFunction key hp.size)
    unfold HashTableLinearProbing.remove
    rw [hscan]
  · rcases remove_cases hp key hppos with ⟨heq, _⟩ | ⟨j, hj, hjk, heq, _⟩
    · rw [heq]
      exact heq
    · rw [heq]
      have habs3 := not_stored_clearSlot hp key j (by rw [hpk]; exact hj) hjk hpuniq
      have hscan3 := scanAux_none_of_absent (hp.clearSlot j).keys
        (hp.clearSlot j).size key habs3 (hp.clearSlot j).size
        (hashFunction key (hp.clearSlot j).size)
      unfold HashTableLinearProbing.remove
      rw [hscan3]
  · rcases remove_cases hp key hppos with ⟨heq, hret⟩ | ⟨j, hj, hjk, heq, _⟩
    · rw [heq]
      exact hret
    · rw [heq]
      have habs3 := not_stored_clearSlot hp key j (by rw [hpk]; exact hj) hjk hpuniq
      have hscan3 := scanAux_none_of_absent (hp.clearSlot j).keys
        (hp.clearSlot j).size key habs3 (hp.clearSlot j).size
        (hashFunction key (hp.clearSlot j).size)
      unfold HashTableLinearProbing.retrieve
      rw [hscan3]

/-- Witness for C6: a size-2 chaining table and a size-2 probing table each
holding only key `0`, probed with the absent key `1`; all three no-op and
idempotence conclusions evaluated there. -/
theorem C6_remove_missing_noop_idempotent_witness :
    (((HashTableChaining.init Nat 2).insert (Key.int 0) 5).remove (Key.int 1) =
      (HashTableChaining.init Nat 2).insert (Key.int 0) 5) ∧
    ((((HashTableChaining.init Nat 2).insert (Key.int 0) 5).remove (Key.int 1)).remove (Key.int 1) =
      ((HashTableChaining.init Nat 2).insert (Key.int 0) 5).remove (Key.int 1)) ∧
    ((((HashTableChaining.init Nat 2).insert (Key.int 0) 5).remove (Key.int 1)).retrieve (Key.int 1) = none) ∧
    (({ size := 2, table := [some 5, none], keys := [some (Key.int 0), none], count := 1 } : HashTableLinearProbing Nat).remove (Key.int 1) =
      { size := 2, table := [some 5, none], keys := [some (Key.int 0), none], count := 1 }) ∧
    ((({ size := 2, table := [some 5, none], keys := [some (Key.int 0), none], count := 1 } : HashTableLinearProbing Nat).remove (Key.int 1)).remove (Key.int 1) =
      ({ size := 2, table := [some 5, none], keys := [some (Key.int 0), none], count := 1 } : HashTableLinearProbing Nat).remove (Key.int 1)) ∧
    ((({ size := 2, table := [some 5, none], keys := [some (Key.int 0), none], count := 1 } : HashTableLinearProbing Nat).remove (Key.int 1)).retrieve (Key.int 1) = none) := by
  have h := C6_remove_missing_noop_idempotent (Key.int 1)
    ((HashTableChaining.init Nat 2).insert (Key.int 0) 5)
    ({ size := 2, table := [some 5, none], keys := [some (Key.int 0), none], count := 1 } : HashTableLinearProbing Nat)
    (by decide) (by decide) (by decide) (by decide) (by decide)
    (by unfold atMostOneSlot; decide)
  exact ⟨h.1 (by decide), h.2.1, h.2.2.1, h.2.2.2.1 (by decide), h.2.2.2.2.1, h.2.2.2.2.2⟩

/-- C7: the shared hash function maps every key into `[0, size)` whenever
`size > 0`, and computes exactly (sum of the key's character code points)
mod size for string keys and (key mod size) for integer keys. Determinism
and freedom from side effects are inherent in the embedding: the source
method reads no state besides `self.size` and writes none, so it is
modelled as a pure function of the key and the size, and equal arguments
trivially give equal results. -/
theorem C7_hash_function_spec (key : Key) (size : Nat) (hpos : 0 < size) :
    hashFunction key size < size ∧
    (∀ s : List Nat, hashFunction (Key.str s) size = s.sum % size) ∧
    (∀ n : Int, hashFunction (Key.int n) size = (n % (size : Int)).toNat) :=
  ⟨hashFunction_lt key size hpos, fun _ => rfl, fun _ => rfl⟩

/-- Witness for C7 at the string key "name" (code points 110, 97, 109, 101)
and size 10. -/
theorem C7_hash_function_spec_witness :
    hashFunction (Key.str [110, 97, 109, 101]) 10 < 10 ∧
    (∀ s : List Nat, hashFunction (Key.str s) 10 = s.sum % 10) ∧
    (∀ n : Int, hashFunction (Key.int n) 10 = (n % (10 : Int)).toNat) :=
  C7_hash_function_spec (Key.str [110, 97, 109, 101]) 10 (by decide)

/-- C8: in every probing-table state reachable from a freshly constructed
table of positive size by `insert` and `remove` (`retrieve` never mutates
the state, so it trivially preserves any state property), `count` equals
the number of occupied key slots and `count ≤ size`. The inductive cases of
`Reachable` are exactly the preservation of the invariant by each mutating
operation. -/
theorem C8_count_invariant {V : Type} (ht : HashTableLinearProbing V)
    (h : Reachable ht) :
    ht.count = (occCount ht.keys : Int) ∧ ht.count ≤ (ht.size : Int) := by
  obtain ⟨⟨hkl, _, hcv⟩, _⟩ := reachable_wf ht h
  refine ⟨hcv, ?_⟩
  rw [hcv]
  have h1 : occCount ht.keys ≤ ht.keys.length := occCount_le_length ht.keys
  rw [hkl] at h1
  exact_mod_cast h1

/-- Witness for C8 at the reachable state obtained by inserting key `0`
into a fresh size-2 table. -/
theorem C8_count_invariant_witness :
    ({ size := 2, table := [some 5, none], keys := [some (Key.int 0), none], count := 1 } : HashTableLinearProbing Nat).count =
      (occCount ({ size := 2, table := [some 5, none], keys := [some (Key.int 0), none], count := 1 } : HashTableLinearProbing Nat).keys : Int) ∧
    ({ size := 2, table := [some 5, none], keys := [some (Key.int 0), none], count := 1 } : HashTableLinearProbing Nat).count ≤
      (({ size := 2, table := [some 5, none], keys := [some (Key.int 0), none], count := 1 } : HashTableLinearProbing Nat).size : Int) :=
  C8_count_invariant _
    (Reachable.insert (HashTableLinearProbing.init Nat 2) _ (Key.int 0) 5
      (Reachable.init 2 (by decide)) (by decide))

/-- C9: the `_find_slot` probe scan is total by construction (its loop
advances modulo `size` and gives up exactly when it would wrap back to the
start, so it is embedded with fuel `size` — it examines at most `size`
slots). When it returns an index, that index is the first slot along the
probe sequence from the home index that is empty or holds the key, and
every earlier probed slot is occupied by a different key; when it fails
(the table-full error), none of the `size` probed slots was empty or held
the key — the scan wrapped fully around. -/
theorem C9_findSlot_scan_spec {V : Type} (ht : HashTableLinearProbing V)
    (key : Key) (hpos : 0 < ht.size) :
    (∀ i, ht.findSlot key = some i →
      ∃ t, t < ht.size ∧ i = (hashFunction key ht.size + t) % ht.size ∧
        (ht.keys.getD i none = none ∨ ht.keys.getD i none = some key) ∧
        (∀ s, s < t →
          ¬(ht.keys.getD ((hashFunction key ht.size + s) % ht.size) none = none ∨
            ht.keys.getD ((hashFunction key ht.size + s) % ht.size) none = some key))) ∧
    (ht.findSlot key = none →
      ∀ t, t < ht.size →
        ¬(ht.keys.getD ((hashFunction key ht.size + t) % ht.size) none = none ∨
          ht.keys.getD ((hashFunction key ht.size + t) % ht.size) none = some key)) := by
  constructor
  · intro i h
    exact findSlotAux_some_spec ht.keys ht.size key ht.size
      (hashFunction key ht.size) i (hashFunction_lt key ht.size hpos) h
  · intro h
    exact findSlotAux_none_spec ht.keys ht.size key ht.size
      (hashFunction key ht.size) (hashFunction_lt key ht.size hpos) h

/-- Witness for C9 on a size-2 table holding key `0` in slot 0, probed with
key `1`. -/
theorem C9_findSlot_scan_spec_witness :
    (∀ i, ({ size := 2, table := [some 5, none], keys := [some (Key.int 0), none], count := 1 } : HashTableLinearProbing Nat).findSlot (Key.int 1) = some i →
      ∃ t, t < 2 ∧ i = (hashFunction (Key.int 1) 2 + t) % 2 ∧
        ([some (Key.int 0), none].getD i none = none ∨
         [some (Key.int 0), none].getD i none = some (Key.int 1)) ∧
        (∀ s, s < t →
          ¬([some (Key.int 0), none].getD ((hashFunction (Key.int 1) 2 + s) % 2) none = none ∨
            [some (Key.int 0), none].getD ((hashFunction (Key.int 1) 2 + s) % 2) none = some (Key.int 1)))) ∧
    (({ size := 2, table := [some 5, none], keys := [some (Key.int 0), none], count := 1 } : HashTableLinearProbing Nat).findSlot (Key.int 1) = none →
      ∀ t, t < 2 →
        ¬([some (Key.int 0), none].getD ((hashFunction (Key.int 1) 2 + t) % 2) none = none ∨
          [some (Key.int 0), none].getD ((hashFunction (Key.int 1) 2 + t) % 2) none = some (Key.int 1))) :=
  C9_findSlot_scan_spec
    ({ size := 2, table := [some 5, none], keys := [some (Key.int 0), none], count := 1 } : HashTableLinearProbing Nat)
    (Key.int 1) (by decide)

/-- C10: when the probing table is full (`count >= size`), `insert` fails
with the table-full error even when the key is already present — the
occupancy guard runs before any probing, although the probe itself would
have found the slot already holding the key (second conjunct), so updating
an existing key's value is impossible at full capacity. -/
theorem C10_full_table_update_impossible {V : Type} (ht : HashTableLinearProbing V)
    (key : Key) (value : V)
    (hwf : ht.WFP) (hpos : 0 < ht.size)
    (hfull : (ht.size : Int) ≤ ht.count)
    (hstored : storedIn ht key) :
    ht.insert key value = none ∧
    ∃ i, i < ht.size ∧ ht.findSlot key = some i ∧
      ht.keys.getD i none = some key := by
  constructor
  · unfold HashTableLinearProbing.insert
    rw [if_pos hfull]
  · have hocc := full_all_occupied ht hwf hfull
    obtain ⟨p, hp, hpg⟩ := (mem_iff_getD ht.keys key).mp hstored
    have hplt : p < ht.size := by rw [← hwf.1]; exact hp
    obtain ⟨s, hs, hreach⟩ := probe_reaches ht.size (hashFunction key ht.size) p
      (hashFunction_lt key ht.size hpos) hplt
    obtain ⟨i, hi, hfind, hig⟩ := findSlotAux_finds_of_full ht.keys ht.size key hocc
      ht.size (hashFunction key ht.size) (hashFunction_lt key ht.size hpos)
      ⟨s, hs, by rw [hreach]; exact hpg⟩
    exact ⟨i, hi, hfind, hig⟩

/-- Witness for C10: a full size-1 table holding key `0`; the attempted
update with value `3` fails although the probe would find slot 0. -/
theorem C10_full_table_update_impossible_witness :
    ({ size := 1, table := [some 9], keys := [some (Key.int 0)], count := 1 } : HashTableLinearProbing Nat).insert (Key.int 0) 3 = none ∧
    ∃ i, i < 1 ∧
      ({ size := 1, table := [some 9], keys := [some (Key.int 0)], count := 1 } : HashTableLinearProbing Nat).findSlot (Key.int 0) = some i ∧
      [some (Key.int 0)].getD i none = some (Key.int 0) :=
  C10_full_table_update_impossible
    ({ size := 1, table := [some 9], keys := [some (Key.int 0)], count := 1 } : HashTableLinearProbing Nat)
    (Key.int 0) 3 (by refine ⟨rfl, rfl, rfl⟩) (by decide) (by decide)
    (by unfold storedIn; decide)
